import Mathlib

/-!
Shallow embedding of the rs-dle-encoder crate (src/lib.rs) and proofs of its
stated properties. Bytes are modelled as natural numbers and byte buffers as
lists of naturals. The caller supplied destination slice of the Rust API is a
list of fixed length whose entries are overwritten in place via List.set. Out
of bounds slice indexing in the Rust source aborts the process; the decode
embedding returns DecodeResult.crash on exactly those paths. The while loops
of the source are embedded as structurally recursive functions over the
suffix of the input that the Rust cursor has not consumed yet, carrying the
numeric indices of the source alongside.
-/

def STX_CHAR : Nat := 0x02
def ETX_CHAR : Nat := 0x03
def DLE_CHAR : Nat := 0x10
def CR_CHAR : Nat := 0x0d

/-- Configuration struct of the encoder (src/lib.rs lines 11-19). -/
structure DleEncoder where
  escape_stx_etx : Bool
  escape_cr : Bool
  add_stx_etx : Bool
  deriving DecidableEq

/-- Error enum of the crate (src/lib.rs lines 22-25). -/
inductive DleError where
  | StreamTooShort
  | DecodingError
  deriving DecidableEq

/-- Outcome of a decode call. The Rust signature is
Result of usize with DleError, plus the read_len out parameter and the
mutated destination buffer; crash marks the paths on which the Rust code
indexes a slice out of bounds and aborts. -/
inductive DecodeResult where
  | crash
  | ok (decoded_len read_len : Nat) (dest : List Nat)
  | err (e : DleError) (read_len : Nat) (dest : List Nat)
  deriving DecidableEq

/-- The error carried by a decode outcome, if any. -/
def DecodeResult.errorOf : DecodeResult → Option DleError
  | .err e _ _ => some e
  | _ => none

instance {ε α : Type} [DecidableEq ε] [DecidableEq α] : DecidableEq (Except ε α) := fun x y =>
  match x, y with
  | .error a, .error b =>
    if h : a = b then .isTrue (h ▸ rfl) else .isFalse fun he => h (Except.error.inj he)
  | .ok a, .ok b =>
    if h : a = b then .isTrue (h ▸ rfl) else .isFalse fun he => h (Except.ok.inj he)
  | .error _, .ok _ => .isFalse fun h => Except.noConfusion h
  | .ok _, .error _ => .isFalse fun h => Except.noConfusion h

/-- Loop of DleEncoder::encode_escaped (src/lib.rs lines 96-128). The first
list is the destination buffer, the second the unconsumed source suffix
(standing for the source_idx cursor), the number is encoded_idx. On loop
exit the unconsumed suffix, the encoded index and the destination are
returned; early returns inside the loop produce the error. -/
def encode_escaped_loop (enc : DleEncoder) :
    List Nat → List Nat → Nat → Except DleError (List Nat × Nat × List Nat)
  | dest, [], encoded_idx => .ok ([], encoded_idx, dest)
  | dest, next_byte :: rest, encoded_idx =>
    if encoded_idx < dest.length then
      if next_byte = STX_CHAR ∨ next_byte = ETX_CHAR ∨
          (enc.escape_cr = true ∧ next_byte = CR_CHAR) then
        if encoded_idx + 1 ≥ dest.length then .error .StreamTooShort
        else
          encode_escaped_loop enc
            ((dest.set encoded_idx DLE_CHAR).set (encoded_idx + 1) (next_byte + 0x40))
            rest (encoded_idx + 2)
      else if next_byte = DLE_CHAR then
        if encoded_idx + 1 ≥ dest.length then .error .StreamTooShort
        else
          encode_escaped_loop enc
            ((dest.set encoded_idx DLE_CHAR).set (encoded_idx + 1) DLE_CHAR)
            rest (encoded_idx + 2)
      else
        encode_escaped_loop enc (dest.set encoded_idx next_byte) rest (encoded_idx + 1)
    else .ok (next_byte :: rest, encoded_idx, dest)

/-- DleEncoder::encode_escaped (src/lib.rs lines 81-142). Returns the number
of encoded bytes together with the final destination buffer. -/
def encode_escaped (enc : DleEncoder) (source_stream dest_stream : List Nat) :
    Except DleError (Nat × List Nat) :=
  if enc.add_stx_etx = true ∧ dest_stream.length < 1 then .error .StreamTooShort
  else
    let encoded_idx0 : Nat := if enc.add_stx_etx then 1 else 0
    let dest0 : List Nat := if enc.add_stx_etx then dest_stream.set 0 STX_CHAR else dest_stream
    match encode_escaped_loop enc dest0 source_stream encoded_idx0 with
    | .error e => .error e
    | .ok (rest, encoded_idx, dest1) =>
      if rest = [] then
        if enc.add_stx_etx then
          if encoded_idx + 1 ≥ dest_stream.length then .error .StreamTooShort
          else .ok (encoded_idx + 1, dest1.set encoded_idx ETX_CHAR)
        else .ok (encoded_idx, dest1)
      else .error .StreamTooShort

/-- Loop of DleEncoder::encode_non_escaped (src/lib.rs lines 190-205); the
self parameter of the Rust method is unused by this loop. -/
def encode_non_escaped_loop :
    List Nat → List Nat → Nat → Except DleError (List Nat × Nat × List Nat)
  | dest, [], encoded_idx => .ok ([], encoded_idx, dest)
  | dest, next_byte :: rest, encoded_idx =>
    if encoded_idx < dest.length then
      if next_byte = DLE_CHAR then
        if encoded_idx + 1 ≥ dest.length then .error .StreamTooShort
        else
          encode_non_escaped_loop
            ((dest.set encoded_idx DLE_CHAR).set (encoded_idx + 1) DLE_CHAR)
            rest (encoded_idx + 2)
      else encode_non_escaped_loop (dest.set encoded_idx next_byte) rest (encoded_idx + 1)
    else .ok (next_byte :: rest, encoded_idx, dest)

/-- DleEncoder::encode_non_escaped (src/lib.rs lines 171-221). -/
def encode_non_escaped (enc : DleEncoder) (source_stream dest_stream : List Nat) :
    Except DleError (Nat × List Nat) :=
  if enc.add_stx_etx = true ∧ dest_stream.length < 2 then .error .StreamTooShort
  else
    let encoded_idx0 : Nat := if enc.add_stx_etx then 2 else 0
    let dest0 : List Nat :=
      if enc.add_stx_etx then (dest_stream.set 0 DLE_CHAR).set 1 STX_CHAR else dest_stream
    match encode_non_escaped_loop dest0 source_stream encoded_idx0 with
    | .error e => .error e
    | .ok (rest, encoded_idx, dest1) =>
      if rest = [] then
        if enc.add_stx_etx then
          if encoded_idx + 2 ≥ dest_stream.length then .error .StreamTooShort
          else
            .ok (encoded_idx + 2,
              (dest1.set encoded_idx DLE_CHAR).set (encoded_idx + 1) ETX_CHAR)
        else .ok (encoded_idx, dest1)
      else .error .StreamTooShort

/-- DleEncoder::encode (src/lib.rs lines 65-71). -/
def encode (enc : DleEncoder) (source_stream dest_stream : List Nat) :
    Except DleError (Nat × List Nat) :=
  if enc.escape_stx_etx then encode_escaped enc source_stream dest_stream
  else encode_non_escaped enc source_stream dest_stream

/-- Loop of DleEncoder::decode_escaped (src/lib.rs lines 296-324). The
arguments are the destination buffer, the source suffix from position
encoded_idx on, encoded_idx and decoded_idx. The Rust loop guard
encoded_idx less than source len minus one says at least two source bytes
remain, which is the condition rest1 different from nil below. An early
return inside the loop carries the error, the read_len written for it and
the destination; a normal exit carries the loop state. -/
def decode_escaped_loop (enc : DleEncoder) :
    List Nat → List Nat → Nat → Nat →
      Except (DleError × Nat × List Nat) (List Nat × Nat × Nat × List Nat)
  | dest, [], encoded_idx, decoded_idx => .ok ([], encoded_idx, decoded_idx, dest)
  | dest, b :: rest1, encoded_idx, decoded_idx =>
    if rest1 ≠ [] ∧ decoded_idx < dest.length ∧ b ≠ ETX_CHAR ∧ b ≠ STX_CHAR then
      if b = DLE_CHAR then
        match rest1 with
        | [] =>
          -- line 302: encoded_idx + 1 at or past the source length
          .error (.DecodingError, encoded_idx + 1, dest)
        | next_byte :: rest2 =>
          if next_byte = DLE_CHAR then
            decode_escaped_loop enc (dest.set decoded_idx next_byte) rest2
              (encoded_idx + 2) (decoded_idx + 1)
          else if next_byte = STX_CHAR + 0x40 ∨ next_byte = ETX_CHAR + 0x40 ∨
              (enc.escape_cr = true ∧ next_byte = CR_CHAR + 0x40) then
            decode_escaped_loop enc (dest.set decoded_idx (next_byte - 0x40)) rest2
              (encoded_idx + 2) (decoded_idx + 1)
          else .error (.DecodingError, encoded_idx + 2, dest)
      else
        decode_escaped_loop enc (dest.set decoded_idx b) rest1
          (encoded_idx + 1) (decoded_idx + 1)
    else .ok (b :: rest1, encoded_idx, decoded_idx, dest)

/-- DleEncoder::decode_escaped (src/lib.rs lines 278-338). The indexing of
source_stream at position 0 (line 292) and at encoded_idx after the loop
(line 326) panics in Rust when the index is out of bounds; those paths
return crash. -/
def decode_escaped (enc : DleEncoder) (source_stream dest_stream : List Nat) : DecodeResult :=
  if dest_stream.length < 1 then .err .StreamTooShort 0 dest_stream
  else
    match source_stream with
    | [] => .crash
    | b0 :: rest =>
      if b0 ≠ STX_CHAR then .err .DecodingError 0 dest_stream
      else
        match decode_escaped_loop enc dest_stream rest 1 0 with
        | .error (e, rl, dest1) => .err e rl dest1
        | .ok ([], _, _, _) => .crash
        | .ok (bE :: _, encoded_idx, decoded_idx, dest1) =>
          if bE ≠ ETX_CHAR then
            if decoded_idx = dest1.length then .err .StreamTooShort 0 dest1
            else .err .DecodingError (encoded_idx + 1) dest1
          else .ok decoded_idx (encoded_idx + 1) dest1

/-- Loop of DleEncoder::decode_non_escaped (src/lib.rs lines 395-423); the
self parameter of the Rust method is unused by this loop. Early returns
inside the loop give the left summand, a normal loop exit the right one. -/
def decode_non_escaped_loop :
    List Nat → List Nat → Nat → Nat → DecodeResult ⊕ (List Nat × Nat × Nat × List Nat)
  | dest, [], encoded_idx, decoded_idx => .inr ([], encoded_idx, decoded_idx, dest)
  | dest, b :: rest1, encoded_idx, decoded_idx =>
    if decoded_idx < dest.length then
      if b = DLE_CHAR then
        match rest1 with
        | [] =>
          -- line 397: encoded_idx + 1 at or past the source length
          .inl (.err .DecodingError encoded_idx dest)
        | next_byte :: rest2 =>
          if next_byte = STX_CHAR then .inl (.err .DecodingError encoded_idx dest)
          else if next_byte = DLE_CHAR then
            decode_non_escaped_loop (dest.set decoded_idx next_byte) rest2
              (encoded_idx + 2) (decoded_idx + 1)
          else if next_byte = ETX_CHAR then
            .inl (.ok decoded_idx (encoded_idx + 2) dest)
          else .inl (.err .DecodingError encoded_idx dest)
      else
        decode_non_escaped_loop (dest.set decoded_idx b) rest1
          (encoded_idx + 1) (decoded_idx + 1)
    else .inr (b :: rest1, encoded_idx, decoded_idx, dest)

/-- DleEncoder::decode_non_escaped (src/lib.rs lines 371-434). The indexing
of source_stream at positions 0 and 1 (lines 386 and 390) panics in Rust
when out of bounds; those paths return crash. -/
def decode_non_escaped (_enc : DleEncoder) (source_stream dest_stream : List Nat) :
    DecodeResult :=
  if dest_stream.length < 2 then .err .StreamTooShort 0 dest_stream
  else
    match source_stream with
    | [] => .crash
    | b0 :: rest0 =>
      if b0 ≠ DLE_CHAR then .err .DecodingError 0 dest_stream
      else
        match rest0 with
        | [] => .crash
        | b1 :: rest1 =>
          if b1 ≠ STX_CHAR then .err .DecodingError 1 dest_stream
          else
            match decode_non_escaped_loop dest_stream rest1 2 0 with
            | .inl r => r
            | .inr (_, encoded_idx, decoded_idx, dest1) =>
              if decoded_idx = dest1.length then .err .StreamTooShort 0 dest1
              else .err .DecodingError encoded_idx dest1

/-- DleEncoder::decode (src/lib.rs lines 254-265). -/
def decode (enc : DleEncoder) (source_stream dest_stream : List Nat) : DecodeResult :=
  if enc.escape_stx_etx then decode_escaped enc source_stream dest_stream
  else decode_non_escaped enc source_stream dest_stream

/-- Escaped mode encoding of one byte: the byte sequence the escaped encode
loop emits for it, mirroring the branch structure of src/lib.rs lines
98-125. -/
def escBytes (escape_cr : Bool) (b : Nat) : List Nat :=
  if b = STX_CHAR ∨ b = ETX_CHAR ∨ (escape_cr = true ∧ b = CR_CHAR) then [DLE_CHAR, b + 0x40]
  else if b = DLE_CHAR then [DLE_CHAR, DLE_CHAR]
  else [b]

/-- Escaped mode encoding of a byte sequence, without delimiters. -/
def escPayload (escape_cr : Bool) : List Nat → List Nat
  | [] => []
  | b :: s => escBytes escape_cr b ++ escPayload escape_cr s

/-- Non escaped mode encoding of one byte (src/lib.rs lines 192-202). -/
def nonEscBytes (b : Nat) : List Nat :=
  if b = DLE_CHAR then [DLE_CHAR, DLE_CHAR] else [b]

/-- Non escaped mode encoding of a byte sequence, without delimiters. -/
def nonEscPayload : List Nat → List Nat
  | [] => []
  | b :: s => nonEscBytes b ++ nonEscPayload s

/-- The complete encoded frame a successful encode call writes for a given
configuration and source. -/
def encodedFrame (enc : DleEncoder) (s : List Nat) : List Nat :=
  if enc.escape_stx_etx then
    if enc.add_stx_etx then STX_CHAR :: (escPayload enc.escape_cr s ++ [ETX_CHAR])
    else escPayload enc.escape_cr s
  else
    if enc.add_stx_etx then
      DLE_CHAR :: STX_CHAR :: (nonEscPayload s ++ [DLE_CHAR, ETX_CHAR])
    else nonEscPayload s

/-- Overwrite the entries of dest from position i on with the entries of the
third list, the way the encode and decode loops write their output. -/
def writeAt : List Nat → Nat → List Nat → List Nat
  | dest, _, [] => dest
  | dest, i, x :: xs => writeAt (dest.set i x) (i + 1) xs

/-- The read_len a decode outcome reports is bounded by n; the crash paths
never report one. -/
def ReadLenBound : DecodeResult → Nat → Prop
  | .crash, _ => True
  | .ok _ read_len _, n => read_len ≤ n
  | .err _ read_len _, n => read_len ≤ n

/-- Bound predicate for the escaped decode loop: early returns report a
read_len within the scanned range, and a normal exit keeps the invariant
that encoded_idx plus the remaining suffix length is the source length. -/
def EscLoopBound :
    Except (DleError × Nat × List Nat) (List Nat × Nat × Nat × List Nat) → Nat → Prop
  | .error (_, rl, _), n => rl ≤ n
  | .ok (r2, ei2, _, _), n => ei2 + r2.length = n

/-- Bound predicate for the non escaped decode loop. -/
def NonLoopBound : DecodeResult ⊕ (List Nat × Nat × Nat × List Nat) → Nat → Prop
  | .inl r, n => ReadLenBound r n
  | .inr (r2, ei2, _, _), n => ei2 + r2.length = n

theorem writeAt_cons (dest : List Nat) (i x : Nat) (xs : List Nat) :
    writeAt dest i (x :: xs) = writeAt (dest.set i x) (i + 1) xs := rfl

theorem writeAt_length (l : List Nat) : ∀ (dest : List Nat) (i : Nat),
    (writeAt dest i l).length = dest.length := by
  induction l with
  | nil => intro dest i; rfl
  | cons x xs ih => intro dest i; rw [writeAt_cons, ih]; simp

theorem writeAt_append (l1 l2 : List Nat) : ∀ (dest : List Nat) (i : Nat),
    writeAt dest i (l1 ++ l2) = writeAt (writeAt dest i l1) (i + l1.length) l2 := by
  induction l1 with
  | nil => intro dest i; simp [writeAt]
  | cons x xs ih =>
    intro dest i
    rw [List.cons_append, writeAt_cons, writeAt_cons, ih]
    have h : i + 1 + xs.length = i + (xs.length + 1) := by omega
    rw [h]
    simp

theorem take_succ_set (dest : List Nat) (i x : Nat) (hi : i < dest.length) :
    (dest.set i x).take (i + 1) = dest.take i ++ [x] := by
  rw [List.set_eq_take_cons_drop x hi, List.take_append_eq_append_take]
  have hlen : (dest.take i).length = i := by simp; omega
  rw [List.take_of_length_le (by omega), hlen]
  simp

theorem writeAt_eq (l : List Nat) : ∀ (dest : List Nat) (i : Nat),
    i + l.length ≤ dest.length →
    writeAt dest i l = dest.take i ++ l ++ dest.drop (i + l.length) := by
  induction l with
  | nil => intro dest i _; simp [writeAt]
  | cons x xs ih =>
    intro dest i h
    have hi : i < dest.length := by simp at h; omega
    rw [writeAt_cons, ih _ _ (by simp; simp at h; omega)]
    rw [take_succ_set dest i x hi, List.drop_set_of_lt _ _ (by omega)]
    have harith : i + 1 + xs.length = i + (xs.length + 1) := by omega
    rw [harith]
    simp

theorem writeAt_zero_take (l : List Nat) (dest : List Nat) (h : l.length ≤ dest.length) :
    (writeAt dest 0 l).take l.length = l := by
  rw [writeAt_eq l dest 0 (by omega)]
  simp [List.take_append_eq_append_take, List.take_of_length_le]

theorem ok_triple_eq {n1 n2 : Nat} {w1 w2 : List Nat} (hn : n1 = n2) (hw : w1 = w2) :
    (Except.ok ([], n1, w1) : Except DleError (List Nat × Nat × List Nat)) =
      .ok ([], n2, w2) := by
  rw [hn, hw]

theorem encode_escaped_loop_ok (enc : DleEncoder) (t : List Nat) :
    ∀ (dest : List Nat) (ei : Nat),
    ei + (escPayload enc.escape_cr t).length ≤ dest.length →
    encode_escaped_loop enc dest t ei =
      .ok ([], ei + (escPayload enc.escape_cr t).length,
        writeAt dest ei (escPayload enc.escape_cr t)) := by
  induction t with
  | nil => intro dest ei h; simp [encode_escaped_loop, escPayload, writeAt]
  | cons b t ih =>
    intro dest ei h
    rw [escPayload] at h ⊢
    by_cases hb : b = STX_CHAR ∨ b = ETX_CHAR ∨ (enc.escape_cr = true ∧ b = CR_CHAR)
    · rw [show escBytes enc.escape_cr b = [DLE_CHAR, b + 0x40] from by
        rw [escBytes, if_pos hb]] at h ⊢
      simp only [List.length_append, List.length_cons, List.length_nil] at h
      rw [encode_escaped_loop]
      rw [if_pos (show ei < dest.length by omega), if_pos hb,
        if_neg (show ¬ ei + 1 ≥ dest.length by omega)]
      rw [ih _ _ (by simp only [List.length_set]; omega)]
      simp only [List.cons_append, List.nil_append, List.length_append,
        List.length_cons, List.length_nil]
      rw [writeAt_cons, writeAt_cons]
      exact ok_triple_eq (by omega) rfl
    · by_cases hd : b = DLE_CHAR
      · rw [show escBytes enc.escape_cr b = [DLE_CHAR, DLE_CHAR] from by
          rw [escBytes, if_neg hb, if_pos hd]] at h ⊢
        simp only [List.length_append, List.length_cons, List.length_nil] at h
        rw [encode_escaped_loop]
        rw [if_pos (show ei < dest.length by omega), if_neg hb, if_pos hd,
          if_neg (show ¬ ei + 1 ≥ dest.length by omega)]
        subst hd
        rw [ih _ _ (by simp only [List.length_set]; omega)]
        simp only [List.cons_append, List.nil_append, List.length_append,
          List.length_cons, List.length_nil]
        rw [writeAt_cons, writeAt_cons]
        exact ok_triple_eq (by omega) rfl
      · rw [show escBytes enc.escape_cr b = [b] from by
          rw [escBytes, if_neg hb, if_neg hd]] at h ⊢
        simp only [List.length_append, List.length_cons, List.length_nil] at h
        rw [encode_escaped_loop]
        rw [if_pos (show ei < dest.length by omega), if_neg hb, if_neg hd]
        rw [ih _ _ (by simp only [List.length_set]; omega)]
        simp only [List.cons_append, List.nil_append, List.length_append,
          List.length_cons, List.length_nil]
        rw [writeAt_cons]
        exact ok_triple_eq (by omega) rfl

theorem encode_escaped_loop_short (enc : DleEncoder) (t : List Nat) :
    ∀ (dest : List Nat) (ei : Nat),
    ei ≤ dest.length →
    dest.length < ei + (escPayload enc.escape_cr t).length →
    encode_escaped_loop enc dest t ei = .error .StreamTooShort ∨
      ∃ b rest ei2 dest2,
        encode_escaped_loop enc dest t ei = .ok (b :: rest, ei2, dest2) := by
  induction t with
  | nil =>
    intro dest ei h1 h2
    rw [escPayload] at h2
    simp at h2
    omega
  | cons b t ih =>
    intro dest ei h1 h2
    rw [escPayload] at h2
    by_cases hei : ei < dest.length
    · by_cases hb : b = STX_CHAR ∨ b = ETX_CHAR ∨ (enc.escape_cr = true ∧ b = CR_CHAR)
      · rw [show escBytes enc.escape_cr b = [DLE_CHAR, b + 0x40] from by
          rw [escBytes, if_pos hb]] at h2
        simp only [List.length_append, List.length_cons, List.length_nil] at h2
        rw [encode_escaped_loop, if_pos hei, if_pos hb]
        by_cases hfull : ei + 1 ≥ dest.length
        · rw [if_pos hfull]; exact .inl rfl
        · rw [if_neg hfull]
          exact ih _ _ (by simp only [List.length_set]; omega)
            (by simp only [List.length_set]; omega)
      · by_cases hd : b = DLE_CHAR
        · rw [show escBytes enc.escape_cr b = [DLE_CHAR, DLE_CHAR] from by
            rw [escBytes, if_neg hb, if_pos hd]] at h2
          simp only [List.length_append, List.length_cons, List.length_nil] at h2
          rw [encode_escaped_loop, if_pos hei, if_neg hb, if_pos hd]
          by_cases hfull : ei + 1 ≥ dest.length
          · rw [if_pos hfull]; exact .inl rfl
          · rw [if_neg hfull]
            exact ih _ _ (by simp only [List.length_set]; omega)
              (by simp only [List.length_set]; omega)
        · rw [show escBytes enc.escape_cr b = [b] from by
            rw [escBytes, if_neg hb, if_neg hd]] at h2
          simp only [List.length_append, List.length_cons, List.length_nil] at h2
          rw [encode_escaped_loop, if_pos hei, if_neg hb, if_neg hd]
          exact ih _ _ (by simp only [List.length_set]; omega)
            (by simp only [List.length_set]; omega)
    · rw [encode_escaped_loop, if_neg hei]
      exact .inr ⟨b, t, ei, dest, rfl⟩

theorem encode_non_escaped_loop_ok (t : List Nat) :
    ∀ (dest : List Nat) (ei : Nat),
    ei + (nonEscPayload t).length ≤ dest.length →
    encode_non_escaped_loop dest t ei =
      .ok ([], ei + (nonEscPayload t).length, writeAt dest ei (nonEscPayload t)) := by
  induction t with
  | nil => intro dest ei h; simp [encode_non_escaped_loop, nonEscPayload, writeAt]
  | cons b t ih =>
    intro dest ei h
    rw [nonEscPayload] at h ⊢
    by_cases hd : b = DLE_CHAR
    · rw [show nonEscBytes b = [DLE_CHAR, DLE_CHAR] from by
        rw [nonEscBytes, if_pos hd]] at h ⊢
      simp only [List.length_append, List.length_cons, List.length_nil] at h
      rw [encode_non_escaped_loop]
      rw [if_pos (show ei < dest.length by omega), if_pos hd,
        if_neg (show ¬ ei + 1 ≥ dest.length by omega)]
      rw [ih _ _ (by simp only [List.length_set]; omega)]
      simp only [List.cons_append, List.nil_append, List.length_append,
        List.length_cons, List.length_nil]
      rw [writeAt_cons, writeAt_cons]
      exact ok_triple_eq (by omega) rfl
    · rw [show nonEscBytes b = [b] from by rw [nonEscBytes, if_neg hd]] at h ⊢
      simp only [List.length_append, List.length_cons, List.length_nil] at h
      rw [encode_non_escaped_loop]
      rw [if_pos (show ei < dest.length by omega), if_neg hd]
      rw [ih _ _ (by simp only [List.length_set]; omega)]
      simp only [List.cons_append, List.nil_append, List.length_append,
        List.length_cons, List.length_nil]
      rw [writeAt_cons]
      exact ok_triple_eq (by omega) rfl

theorem encode_non_escaped_loop_short (t : List Nat) :
    ∀ (dest : List Nat) (ei : Nat),
    ei ≤ dest.length →
    dest.length < ei + (nonEscPayload t).length →
    encode_non_escaped_loop dest t ei = .error .StreamTooShort ∨
      ∃ b rest ei2 dest2,
        encode_non_escaped_loop dest t ei = .ok (b :: rest, ei2, dest2) := by
  induction t with
  | nil =>
    intro dest ei h1 h2
    rw [nonEscPayload] at h2
    simp at h2
    omega
  | cons b t ih =>
    intro dest ei h1 h2
    rw [nonEscPayload] at h2
    by_cases hei : ei < dest.length
    · by_cases hd : b = DLE_CHAR
      · rw [show nonEscBytes b = [DLE_CHAR, DLE_CHAR] from by
          rw [nonEscBytes, if_pos hd]] at h2
        simp only [List.length_append, List.length_cons, List.length_nil] at h2
        rw [encode_non_escaped_loop, if_pos hei, if_pos hd]
        by_cases hfull : ei + 1 ≥ dest.length
        · rw [if_pos hfull]; exact .inl rfl
        · rw [if_neg hfull]
          exact ih _ _ (by simp only [List.length_set]; omega)
            (by simp only [List.length_set]; omega)
      · rw [show nonEscBytes b = [b] from by rw [nonEscBytes, if_neg hd]] at h2
        simp only [List.length_append, List.length_cons, List.length_nil] at h2
        rw [encode_non_escaped_loop, if_pos hei, if_neg hd]
        exact ih _ _ (by simp only [List.length_set]; omega)
          (by simp only [List.length_set]; omega)
    · rw [encode_non_escaped_loop, if_neg hei]
      exact .inr ⟨b, t, ei, dest, rfl⟩

theorem ok_pair_eq {n1 n2 : Nat} {w1 w2 : List Nat} (hn : n1 = n2) (hw : w1 = w2) :
    (Except.ok (n1, w1) : Except DleError (Nat × List Nat)) = .ok (n2, w2) := by
  rw [hn, hw]

/-- Full behaviour of encode_escaped: it succeeds exactly when the
destination can hold the encoded frame, plus one spare byte if the
delimiters are added, and then writes the frame at position 0. -/
theorem encode_escaped_spec (enc : DleEncoder) (s dest : List Nat) :
    encode_escaped enc s dest =
      if (escPayload enc.escape_cr s).length + (if enc.add_stx_etx then 3 else 0) ≤
          dest.length
      then .ok ((escPayload enc.escape_cr s).length + (if enc.add_stx_etx then 2 else 0),
        writeAt dest 0 (if enc.add_stx_etx then
          STX_CHAR :: (escPayload enc.escape_cr s ++ [ETX_CHAR])
          else escPayload enc.escape_cr s))
      else .error .StreamTooShort := by
  cases hadd : enc.add_stx_etx with
  | false =>
    simp only [encode_escaped, hadd, if_false, Bool.false_eq_true, false_and,
      Nat.add_zero]
    by_cases hfit : (escPayload enc.escape_cr s).length ≤ dest.length
    · rw [encode_escaped_loop_ok enc s dest 0 (by omega)]
      simp [hfit]
    · rcases encode_escaped_loop_short enc s dest 0 (by omega) (by omega) with
        h | ⟨b, rest, ei2, dest2, h⟩ <;> rw [h] <;> simp [hfit]
  | true =>
    simp only [encode_escaped, hadd, if_true]
    by_cases h0 : dest.length < 1
    · rw [if_pos (by simp [h0]), if_neg (by omega)]
    · rw [if_neg (by simp [h0])]
      by_cases hfit : 1 + (escPayload enc.escape_cr s).length ≤ dest.length
      · rw [encode_escaped_loop_ok enc s (dest.set 0 STX_CHAR) 1
          (by simp only [List.length_set]; omega)]
        simp only []
        by_cases hfin : 1 + (escPayload enc.escape_cr s).length + 1 ≥ dest.length
        · rw [if_true, if_pos hfin, if_neg (by omega)]
        · rw [if_true, if_neg hfin, if_pos (by omega)]
          rw [writeAt_cons, writeAt_append]
          exact ok_pair_eq (by omega) rfl
      · rcases encode_escaped_loop_short enc s (dest.set 0 STX_CHAR) 1
          (by simp only [List.length_set]; omega)
          (by simp only [List.length_set]; omega) with
          h | ⟨b, rest, ei2, dest2, h⟩
        · rw [h, if_neg (by omega)]
        · rw [h, if_neg (by omega)]
          simp

/-- Full behaviour of encode_non_escaped: it succeeds exactly when the
destination can hold the encoded frame, plus one spare byte if the
delimiters are added, and then writes the frame at position 0. -/
theorem encode_non_escaped_spec (enc : DleEncoder) (s dest : List Nat) :
    encode_non_escaped enc s dest =
      if (nonEscPayload s).length + (if enc.add_stx_etx then 5 else 0) ≤ dest.length
      then .ok ((nonEscPayload s).length + (if enc.add_stx_etx then 4 else 0),
        writeAt dest 0 (if enc.add_stx_etx then
          DLE_CHAR :: STX_CHAR :: (nonEscPayload s ++ [DLE_CHAR, ETX_CHAR])
          else nonEscPayload s))
      else .error .StreamTooShort := by
  cases hadd : enc.add_stx_etx with
  | false =>
    simp only [encode_non_escaped, hadd, if_false, Bool.false_eq_true, false_and,
      Nat.add_zero]
    by_cases hfit : (nonEscPayload s).length ≤ dest.length
    · rw [encode_non_escaped_loop_ok s dest 0 (by omega)]
      simp [hfit]
    · rcases encode_non_escaped_loop_short s dest 0 (by omega) (by omega) with
        h | ⟨b, rest, ei2, dest2, h⟩ <;> rw [h] <;> simp [hfit]
  | true =>
    simp only [encode_non_escaped, hadd, if_true]
    by_cases h0 : dest.length < 2
    · rw [if_pos (by simp [h0]), if_neg (by omega)]
    · rw [if_neg (by simp [h0])]
      by_cases hfit : 2 + (nonEscPayload s).length ≤ dest.length
      · rw [encode_non_escaped_loop_ok s ((dest.set 0 DLE_CHAR).set 1 STX_CHAR) 2
          (by simp only [List.length_set]; omega)]
        simp only []
        by_cases hfin : 2 + (nonEscPayload s).length + 2 ≥ dest.length
        · rw [if_true, if_pos hfin, if_neg (by omega)]
        · rw [if_true, if_neg hfin, if_pos (by omega)]
          rw [writeAt_cons, writeAt_cons, writeAt_append]
          exact ok_pair_eq (by omega) rfl
      · rcases encode_non_escaped_loop_short s ((dest.set 0 DLE_CHAR).set 1 STX_CHAR) 2
          (by simp only [List.length_set]; omega)
          (by simp only [List.length_set]; omega) with
          h | ⟨b, rest, ei2, dest2, h⟩
        · rw [h, if_neg (by omega)]
        · rw [h, if_neg (by omega)]
          simp

/-- Full behaviour of encode, uniformly over the configuration: it succeeds
exactly when the destination can hold the complete encoded frame, plus one
spare byte whenever add_stx_etx is set, in which case it returns the frame
length and writes the frame at position 0 of the destination. -/
theorem encode_spec (enc : DleEncoder) (s dest : List Nat) :
    encode enc s dest =
      if (encodedFrame enc s).length + (if enc.add_stx_etx then 1 else 0) ≤ dest.length
      then .ok ((encodedFrame enc s).length, writeAt dest 0 (encodedFrame enc s))
      else .error .StreamTooShort := by
  cases hesc : enc.escape_stx_etx with
  | true =>
    rw [encode, if_pos hesc, encode_escaped_spec]
    simp only [encodedFrame, hesc, if_true]
    cases hadd : enc.add_stx_etx with
    | false =>
      simp only [hadd, Bool.false_eq_true, if_false, Nat.add_zero]
    | true =>
      simp only [hadd, if_true, List.length_cons, List.length_append, List.length_nil]
  | false =>
    rw [encode, if_neg (by simp [hesc]), encode_non_escaped_spec]
    simp only [encodedFrame, hesc, if_false, Bool.false_eq_true]
    cases hadd : enc.add_stx_etx with
    | false =>
      simp only [hadd, Bool.false_eq_true, if_false, Nat.add_zero]
    | true =>
      simp only [hadd, if_true, List.length_cons, List.length_append, List.length_nil]

/-- Scanning the escaped encoding of t, the escaped decode loop writes t to
the destination and moves on to the suffix, as long as one more byte
follows and the destination has room for t. -/
theorem decode_escaped_loop_payload (enc : DleEncoder) (t : List Nat) :
    ∀ (dest suffix : List Nat) (ei di : Nat),
    suffix ≠ [] →
    di + t.length ≤ dest.length →
    decode_escaped_loop enc dest (escPayload enc.escape_cr t ++ suffix) ei di =
      decode_escaped_loop enc (writeAt dest di t) suffix
        (ei + (escPayload enc.escape_cr t).length) (di + t.length) := by
  induction t with
  | nil => intro dest suffix ei di hs h; simp [escPayload, writeAt]
  | cons b t ih =>
    intro dest suffix ei di hs h
    simp only [List.length_cons] at h
    rw [escPayload]
    by_cases hb : b = STX_CHAR ∨ b = ETX_CHAR ∨ (enc.escape_cr = true ∧ b = CR_CHAR)
    · rw [show escBytes enc.escape_cr b = [DLE_CHAR, b + 0x40] from by
        rw [escBytes, if_pos hb]]
      rw [show ei + ([DLE_CHAR, b + 0x40] ++ escPayload enc.escape_cr t).length
          = ei + 2 + (escPayload enc.escape_cr t).length from by simp; omega]
      rw [show di + (b :: t).length = di + 1 + t.length from by simp; omega]
      rw [writeAt_cons]
      simp only [List.cons_append, List.nil_append]
      rw [decode_escaped_loop]
      rw [if_pos ⟨by simp, by omega, by decide, by decide⟩, if_pos rfl]
      rw [if_neg (show ¬ b + 0x40 = DLE_CHAR by
        intro hc; rw [show DLE_CHAR = 16 from rfl] at hc; omega)]
      rcases hb with hb | hb | ⟨hcr, hb⟩
      · subst hb
        rw [if_pos (Or.inl rfl)]
        simp only [Nat.add_sub_cancel]
        exact ih _ _ _ _ hs (by simp only [List.length_set]; omega)
      · subst hb
        rw [if_pos (Or.inr (Or.inl rfl))]
        simp only [Nat.add_sub_cancel]
        exact ih _ _ _ _ hs (by simp only [List.length_set]; omega)
      · subst hb
        rw [if_pos (Or.inr (Or.inr ⟨hcr, rfl⟩))]
        simp only [Nat.add_sub_cancel]
        exact ih _ _ _ _ hs (by simp only [List.length_set]; omega)
    · by_cases hd : b = DLE_CHAR
      · rw [show escBytes enc.escape_cr b = [DLE_CHAR, DLE_CHAR] from by
          rw [escBytes, if_neg hb, if_pos hd]]
        rw [show ei + ([DLE_CHAR, DLE_CHAR] ++ escPayload enc.escape_cr t).length
            = ei + 2 + (escPayload enc.escape_cr t).length from by simp; omega]
        rw [show di + (b :: t).length = di + 1 + t.length from by simp; omega]
        rw [writeAt_cons]
        simp only [List.cons_append, List.nil_append]
        rw [decode_escaped_loop]
        rw [if_pos ⟨by simp, by omega, by decide, by decide⟩, if_pos rfl]
        rw [if_pos rfl]
        subst hd
        exact ih _ _ _ _ hs (by simp only [List.length_set]; omega)
      · rw [show escBytes enc.escape_cr b = [b] from by
          rw [escBytes, if_neg hb, if_neg hd]]
        rw [show ei + ([b] ++ escPayload enc.escape_cr t).length
            = ei + 1 + (escPayload enc.escape_cr t).length from by simp; omega]
        rw [show di + (b :: t).length = di + 1 + t.length from by simp; omega]
        rw [writeAt_cons]
        simp only [List.cons_append, List.nil_append]
        rcases hrest : escPayload enc.escape_cr t ++ suffix with _ | ⟨c, cs⟩
        · exact absurd (List.append_eq_nil.mp hrest).2 hs
        · rw [decode_escaped_loop]
          rw [if_pos ⟨by simp, by omega,
            fun hc => hb (Or.inr (Or.inl hc)),
            fun hc => hb (Or.inl hc)⟩]
          rw [if_neg hd, ← hrest]
          exact ih _ _ _ _ hs (by simp only [List.length_set]; omega)

/-- Scanning the non escaped encoding of t, the non escaped decode loop
writes t to the destination and moves on to the suffix, as long as the
destination has room for t. -/
theorem decode_non_escaped_loop_payload (t : List Nat) :
    ∀ (dest suffix : List Nat) (ei di : Nat),
    di + t.length ≤ dest.length →
    decode_non_escaped_loop dest (nonEscPayload t ++ suffix) ei di =
      decode_non_escaped_loop (writeAt dest di t) suffix
        (ei + (nonEscPayload t).length) (di + t.length) := by
  induction t with
  | nil => intro dest suffix ei di h; simp [nonEscPayload, writeAt]
  | cons b t ih =>
    intro dest suffix ei di h
    simp only [List.length_cons] at h
    rw [nonEscPayload]
    by_cases hd : b = DLE_CHAR
    · rw [show nonEscBytes b = [DLE_CHAR, DLE_CHAR] from by rw [nonEscBytes, if_pos hd]]
      rw [show ei + ([DLE_CHAR, DLE_CHAR] ++ nonEscPayload t).length
          = ei + 2 + (nonEscPayload t).length from by simp; omega]
      rw [show di + (b :: t).length = di + 1 + t.length from by simp; omega]
      rw [writeAt_cons]
      simp only [List.cons_append, List.nil_append]
      rw [decode_non_escaped_loop]
      rw [if_pos (show di < dest.length by omega), if_pos rfl]
      rw [if_neg (by decide), if_pos rfl]
      subst hd
      exact ih _ _ _ _ (by simp only [List.length_set]; omega)
    · rw [show nonEscBytes b = [b] from by rw [nonEscBytes, if_neg hd]]
      rw [show ei + ([b] ++ nonEscPayload t).length
          = ei + 1 + (nonEscPayload t).length from by simp; omega]
      rw [show di + (b :: t).length = di + 1 + t.length from by simp; omega]
      rw [writeAt_cons]
      simp only [List.cons_append, List.nil_append]
      rcases hrest : nonEscPayload t ++ suffix with _ | ⟨c, cs⟩
      · rw [decode_non_escaped_loop]
        rw [if_pos (show di < dest.length by omega), if_neg hd, ← hrest]
        exact ih _ _ _ _ (by simp only [List.length_set]; omega)
      · rw [decode_non_escaped_loop]
        rw [if_pos (show di < dest.length by omega), if_neg hd, ← hrest]
        exact ih _ _ _ _ (by simp only [List.length_set]; omega)

theorem decode_escaped_loop_bound (enc : DleEncoder) (dest rest : List Nat)
    (ei di : Nat) :
    EscLoopBound (decode_escaped_loop enc dest rest ei di) (ei + rest.length) := by
  induction dest, rest, ei, di using decode_escaped_loop.induct enc with
  | case1 dest ei di => simp [decode_escaped_loop, EscLoopBound]
  | case2 dest ei di hg => exact absurd rfl hg.1
  | case3 dest ei di rest2 hg ih =>
    rw [decode_escaped_loop.eq_def]
    simp only []
    rw [if_pos hg, if_true, if_true]
    rw [show ei + (DLE_CHAR :: DLE_CHAR :: rest2).length = ei + 2 + rest2.length from by
      simp; omega]
    exact ih
  | case4 dest ei di nb rest2 hnd hsh hg ih =>
    rw [decode_escaped_loop.eq_def]
    simp only []
    rw [if_pos hg, if_true, if_neg hnd, if_pos hsh]
    rw [show ei + (DLE_CHAR :: nb :: rest2).length = ei + 2 + rest2.length from by
      simp; omega]
    exact ih
  | case5 dest ei di nb rest2 hnd hnsh hg =>
    rw [decode_escaped_loop.eq_def]
    simp only []
    rw [if_pos hg, if_true, if_neg hnd, if_neg hnsh]
    simp only [EscLoopBound, List.length_cons]
    omega
  | case6 dest b rest1 ei di hg hnd ih =>
    rw [decode_escaped_loop.eq_def]
    simp only []
    rw [if_pos hg, if_neg hnd]
    rw [show ei + (b :: rest1).length = ei + 1 + rest1.length from by simp; omega]
    exact ih
  | case7 dest b rest1 ei di hg =>
    rw [decode_escaped_loop.eq_def]
    simp only []
    rw [if_neg hg]
    simp [EscLoopBound]

theorem decode_non_escaped_loop_bound (dest rest : List Nat) (ei di : Nat) :
    NonLoopBound (decode_non_escaped_loop dest rest ei di) (ei + rest.length) := by
  induction dest, rest, ei, di using decode_non_escaped_loop.induct with
  | case1 dest ei di => simp [decode_non_escaped_loop, NonLoopBound]
  | case2 dest ei di hlt =>
    rw [decode_non_escaped_loop.eq_def]
    simp only []
    rw [if_pos hlt, if_true]
    simp only [NonLoopBound, ReadLenBound, List.length_cons]
    omega
  | case3 dest ei di hlt rest2 =>
    rw [decode_non_escaped_loop.eq_def]
    simp only []
    rw [if_pos hlt, if_true, if_true]
    simp only [NonLoopBound, ReadLenBound, List.length_cons]
    omega
  | case4 dest ei di hlt rest2 hns ih =>
    rw [decode_non_escaped_loop.eq_def]
    simp only []
    rw [if_pos hlt, if_true, if_neg hns, if_true]
    rw [show ei + (DLE_CHAR :: DLE_CHAR :: rest2).length = ei + 2 + rest2.length from by
      simp; omega]
    exact ih
  | case5 dest ei di hlt rest2 h1 h2 =>
    rw [decode_non_escaped_loop.eq_def]
    simp only []
    rw [if_pos hlt, if_true, if_neg h1, if_neg h2, if_true]
    simp only [NonLoopBound, ReadLenBound, List.length_cons]
    omega
  | case6 dest ei di hlt nb rest2 h1 h2 h3 =>
    rw [decode_non_escaped_loop.eq_def]
    simp only []
    rw [if_pos hlt, if_true, if_neg h1, if_neg h2, if_neg h3]
    simp only [NonLoopBound, ReadLenBound, List.length_cons]
    omega
  | case7 dest b rest1 ei di hlt hnd ih =>
    rw [decode_non_escaped_loop.eq_def]
    simp only []
    rw [if_pos hlt, if_neg hnd]
    rw [show ei + (b :: rest1).length = ei + 1 + rest1.length from by simp; omega]
    exact ih
  | case8 dest b rest1 ei di hlt =>
    rw [decode_non_escaped_loop.eq_def]
    simp only []
    rw [if_neg hlt]
    simp [NonLoopBound]

theorem dr_ok_eq {a1 a2 b1 b2 : Nat} {w1 w2 : List Nat} (ha : a1 = a2) (hb : b1 = b2)
    (hw : w1 = w2) : DecodeResult.ok a1 b1 w1 = .ok a2 b2 w2 := by
  rw [ha, hb, hw]

theorem dr_err_eq {e : DleError} {b1 b2 : Nat} {w1 w2 : List Nat} (hb : b1 = b2)
    (hw : w1 = w2) : DecodeResult.err e b1 w1 = .err e b2 w2 := by
  rw [hb, hw]

/-- Decoding a complete well formed escaped frame for s succeeds, writes s
and consumes the whole frame. -/
theorem decode_escaped_frame (enc : DleEncoder) (s dest : List Nat)
    (h1 : 1 ≤ dest.length) (h2 : s.length ≤ dest.length) :
    decode_escaped enc (STX_CHAR :: (escPayload enc.escape_cr s ++ [ETX_CHAR])) dest =
      .ok s.length ((escPayload enc.escape_cr s).length + 2) (writeAt dest 0 s) := by
  rw [decode_escaped]
  rw [if_neg (by omega)]
  rw [if_neg (by simp)]
  rw [decode_escaped_loop_payload enc s dest [ETX_CHAR] 1 0 (by simp) (by omega)]
  rw [decode_escaped_loop.eq_def]
  simp only []
  rw [if_neg (by simp)]
  simp only []
  rw [if_neg (by simp)]
  exact dr_ok_eq (by omega) (by omega) rfl

/-- Meeting a second unescaped START after a clean payload, escaped decoding
reports DecodingError with read_len one past the second START, provided the
destination still has room. -/
theorem decode_escaped_second_start_spec (enc : DleEncoder) (t tail dest : List Nat)
    (h : t.length < dest.length) :
    decode_escaped enc (STX_CHAR :: (escPayload enc.escape_cr t ++ (STX_CHAR :: tail)))
        dest =
      .err .DecodingError ((escPayload enc.escape_cr t).length + 2) (writeAt dest 0 t) := by
  rw [decode_escaped]
  rw [if_neg (by omega)]
  rw [if_neg (by simp)]
  rw [decode_escaped_loop_payload enc t dest (STX_CHAR :: tail) 1 0 (by simp) (by omega)]
  rw [decode_escaped_loop.eq_def]
  simp only []
  rw [if_neg (by simp)]
  simp only []
  rw [if_pos (by decide)]
  rw [if_neg (by rw [writeAt_length]; omega)]
  exact dr_err_eq (by omega) rfl

/-- Meeting ESCAPE then START after a clean payload, non escaped decoding
reports DecodingError with read_len pointing at the ESCAPE byte, provided
the destination still has room. -/
theorem decode_non_escaped_collision_spec (enc : DleEncoder) (t tail dest : List Nat)
    (h : t.length < dest.length) (h2 : 2 ≤ dest.length) :
    decode_non_escaped enc
        (DLE_CHAR :: STX_CHAR :: (nonEscPayload t ++ (DLE_CHAR :: STX_CHAR :: tail)))
        dest =
      .err .DecodingError (2 + (nonEscPayload t).length) (writeAt dest 0 t) := by
  rw [decode_non_escaped]
  rw [if_neg (by omega)]
  rw [if_neg (by simp)]
  rw [if_neg (by simp)]
  rw [decode_non_escaped_loop_payload t dest (DLE_CHAR :: STX_CHAR :: tail) 2 0 (by omega)]
  rw [decode_non_escaped_loop.eq_def]
  simp only []
  rw [if_pos (by rw [writeAt_length]; omega), if_true, if_true]

/-- Meeting ESCAPE then END after a clean payload, non escaped decoding
succeeds with read_len just past the END byte, provided the destination
still has room. -/
theorem decode_non_escaped_end_spec (enc : DleEncoder) (t tail dest : List Nat)
    (h : t.length < dest.length) (h2 : 2 ≤ dest.length) :
    decode_non_escaped enc
        (DLE_CHAR :: STX_CHAR :: (nonEscPayload t ++ (DLE_CHAR :: ETX_CHAR :: tail)))
        dest =
      .ok t.length (2 + (nonEscPayload t).length + 2) (writeAt dest 0 t) := by
  rw [decode_non_escaped]
  rw [if_neg (by omega)]
  rw [if_neg (by simp)]
  rw [if_neg (by simp)]
  rw [decode_non_escaped_loop_payload t dest (DLE_CHAR :: ETX_CHAR :: tail) 2 0 (by omega)]
  rw [decode_non_escaped_loop.eq_def]
  simp only []
  rw [if_pos (by rw [writeAt_length]; omega), if_true, if_neg (by decide),
    if_neg (by decide), if_true]
  simp

/-- No byte of an escaped payload is START or END: escaped bytes are moved
out of the control range by the 0x40 shift, and the plain branch excludes
them. -/
theorem escPayload_no_delimiters (cr : Bool) (s : List Nat) :
    ∀ x ∈ escPayload cr s, x ≠ STX_CHAR ∧ x ≠ ETX_CHAR := by
  induction s with
  | nil => intro x hx; simp [escPayload] at hx
  | cons b t ih =>
    intro x hx
    rw [escPayload] at hx
    rcases List.mem_append.mp hx with hx | hx
    · rw [escBytes] at hx
      by_cases hb : b = STX_CHAR ∨ b = ETX_CHAR ∨ (cr = true ∧ b = CR_CHAR)
      · rw [if_pos hb] at hx
        simp at hx
        rcases hx with hx | hx <;> subst hx <;>
          exact ⟨by simp only [STX_CHAR, DLE_CHAR]; omega,
            by simp only [ETX_CHAR, DLE_CHAR]; omega⟩
      · rw [if_neg hb] at hx
        by_cases hd : b = DLE_CHAR
        · rw [if_pos hd] at hx
          simp at hx
          subst hx
          exact ⟨by decide, by decide⟩
        · rw [if_neg hd] at hx
          simp at hx
          subst hx
          exact ⟨fun hc => hb (Or.inl hc), fun hc => hb (Or.inr (Or.inl hc))⟩
    · exact ih x hx

theorem readLenBound_mono {r : DecodeResult} {n m : Nat} (h : ReadLenBound r n)
    (hnm : n ≤ m) : ReadLenBound r m := by
  cases r <;> simp [ReadLenBound] at h ⊢ <;> omega

/-- C2: the claim states that decode, in either mode, returns a DleError
through the Result channel on every input, including the empty slice, a
slice consisting only of START, and a slice ending in a complete escape
pair with no terminator, and never panics or reads out of bounds. The code
violates this: on these inputs it indexes source_stream out of bounds
(lines 292 and 326 of the escaped decoder, lines 386 and 390 of the non
escaped one), which panics in Rust and is modelled by crash. -/
theorem decode_crashes_on_malformed_input :
    decode ⟨true, false, true⟩ [] [0, 0, 0, 0] = .crash ∧
    decode ⟨true, false, true⟩ [STX_CHAR] [0, 0, 0, 0] = .crash ∧
    decode ⟨true, false, true⟩ [STX_CHAR, DLE_CHAR, DLE_CHAR] [0, 0, 0, 0] = .crash ∧
    decode ⟨false, false, true⟩ [] [0, 0, 0, 0] = .crash ∧
    decode ⟨false, false, true⟩ [DLE_CHAR] [0, 0, 0, 0] = .crash := by decide

/-- C3 (amended): encode returns StreamTooShort exactly when the supplied
output buffer cannot hold the complete encoded frame plus one spare byte
whenever delimiters are added (the source requires strict inequality when
writing the trailing delimiter); otherwise it succeeds, consumes the whole
input, returns the full frame length and writes the frame. -/
theorem encode_failure_contract (enc : DleEncoder) (s dest : List Nat) :
    encode enc s dest =
      if (encodedFrame enc s).length + (if enc.add_stx_etx then 1 else 0) ≤ dest.length
      then .ok ((encodedFrame enc s).length, writeAt dest 0 (encodedFrame enc s))
      else .error .StreamTooShort :=
  encode_spec enc s dest

/-- C3 counterexample: for the empty input under the default configuration
the encoded frame is the two bytes START, END, yet a destination buffer of
exactly two bytes is rejected with StreamTooShort, against the claim that a
buffer at least as long as the frame suffices. -/
theorem encode_exact_fit_rejected :
    (encodedFrame ⟨true, false, true⟩ []).length = 2 ∧
    encode ⟨true, false, true⟩ [] [0, 0] = .error .StreamTooShort := by decide

/-- C5 counterexample: decoding the frame START, 0, START in escaped mode
reports read_len 3, which includes the second START at index 2; the claim
that read_len points before the second START would need read_len at most
2. -/
theorem decode_second_start_read_len_cex :
    decode ⟨true, false, true⟩ [STX_CHAR, 0, STX_CHAR] [0, 0, 0, 0] =
      .err .DecodingError 3 [0, 0, 0, 0] ∧ ¬ (3 ≤ 2) := by decide

/-- C5 (amended): in escaped mode, an input that begins with START and runs
into a second unescaped START after a cleanly decodable payload t yields
DecodingError, with read_len equal to the index of the second START plus
one, so the second START byte is consumed, provided the destination has
room for t. -/
theorem decode_escaped_second_start_consumed (cr add : Bool) (t tail dest : List Nat)
    (h : t.length < dest.length) :
    decode ⟨true, cr, add⟩ (STX_CHAR :: (escPayload cr t ++ (STX_CHAR :: tail))) dest =
      .err .DecodingError ((escPayload cr t).length + 2) (writeAt dest 0 t) := by
  rw [decode, if_pos rfl]
  exact decode_escaped_second_start_spec ⟨true, cr, add⟩ t tail dest h

theorem decode_escaped_second_start_consumed_witness :
    (([0] : List Nat).length < ([0, 0] : List Nat).length) ∧
    decode ⟨true, false, true⟩ (STX_CHAR :: (escPayload false [0] ++ (STX_CHAR :: [7])))
        [0, 0] =
      .err .DecodingError ((escPayload false [0]).length + 2) (writeAt [0, 0] 0 [0]) :=
  ⟨by decide, decode_escaped_second_start_consumed false true [0] [7] [0, 0] (by decide)⟩

/-- C6: the claim states that an input beginning with START and exhausted
before any END byte yields DecodingError with read_len equal to the full
input length. On the input START, ESCAPE, ESCAPE, which is exhausted right
after a complete escape pair, the code instead reads source_stream out of
bounds at line 326 and panics, returning no error at all. -/
theorem decode_escaped_truncated_crash :
    decode ⟨true, false, true⟩ [STX_CHAR, DLE_CHAR, DLE_CHAR] [0, 0, 0, 0] = .crash ∧
    (decode ⟨true, false, true⟩ [STX_CHAR, DLE_CHAR, DLE_CHAR] [0, 0, 0, 0]).errorOf ≠
      some .DecodingError := by decide

/-- C7: the claim states that when the destination fills up before an END
byte is reached, escaped decoding returns StreamTooShort with read_len 0.
On the input START, ESCAPE, ESCAPE with a one byte destination the
destination is full before any END, yet the code reads source_stream out
of bounds at line 326 and panics instead of returning StreamTooShort. -/
theorem decode_escaped_output_exhaustion_crash :
    decode ⟨true, false, true⟩ [STX_CHAR, DLE_CHAR, DLE_CHAR] [0] = .crash ∧
    (decode ⟨true, false, true⟩ [STX_CHAR, DLE_CHAR, DLE_CHAR] [0]).errorOf ≠
      some .StreamTooShort := by decide

/-- C8: non escaped resynchronization. After a valid ESCAPE START header and
a cleanly decodable payload t, a lone ESCAPE followed by START yields
DecodingError with read_len equal to the index of that ESCAPE byte, which
is just before the ESCAPE START pair; and ESCAPE followed by END terminates
the frame successfully with read_len just past the END byte. -/
theorem decode_non_escaped_resync (cr add : Bool) (t tail dest : List Nat)
    (h : t.length < dest.length) (h2 : 2 ≤ dest.length) :
    decode ⟨false, cr, add⟩
        (DLE_CHAR :: STX_CHAR :: (nonEscPayload t ++ (DLE_CHAR :: STX_CHAR :: tail)))
        dest =
      .err .DecodingError (2 + (nonEscPayload t).length) (writeAt dest 0 t) ∧
    decode ⟨false, cr, add⟩
        (DLE_CHAR :: STX_CHAR :: (nonEscPayload t ++ (DLE_CHAR :: ETX_CHAR :: tail)))
        dest =
      .ok t.length (2 + (nonEscPayload t).length + 2) (writeAt dest 0 t) := by
  constructor
  · rw [decode, if_neg (by simp)]
    exact decode_non_escaped_collision_spec ⟨false, cr, add⟩ t tail dest h h2
  · rw [decode, if_neg (by simp)]
    exact decode_non_escaped_end_spec ⟨false, cr, add⟩ t tail dest h h2

theorem decode_non_escaped_resync_witness :
    (([DLE_CHAR] : List Nat).length < ([0, 0, 0] : List Nat).length) ∧
    (2 ≤ ([0, 0, 0] : List Nat).length) ∧
    (decode ⟨false, false, true⟩
        (DLE_CHAR :: STX_CHAR ::
          (nonEscPayload [DLE_CHAR] ++ (DLE_CHAR :: STX_CHAR :: [])))
        [0, 0, 0] =
      .err .DecodingError (2 + (nonEscPayload [DLE_CHAR]).length)
        (writeAt [0, 0, 0] 0 [DLE_CHAR]) ∧
    decode ⟨false, false, true⟩
        (DLE_CHAR :: STX_CHAR ::
          (nonEscPayload [DLE_CHAR] ++ (DLE_CHAR :: ETX_CHAR :: [])))
        [0, 0, 0] =
      .ok ([DLE_CHAR] : List Nat).length (2 + (nonEscPayload [DLE_CHAR]).length + 2)
        (writeAt [0, 0, 0] 0 [DLE_CHAR])) :=
  ⟨by decide, by decide,
    decode_non_escaped_resync false true [DLE_CHAR] [] [0, 0, 0] (by decide) (by decide)⟩

/-- C9: implicit minimum output capacity. Before inspecting any input byte,
decode_escaped rejects any destination of length 0 and decode_non_escaped
any destination of length less than 2, both with StreamTooShort and
read_len 0, for every source, every configuration. -/
theorem decode_min_dest_capacity (enc : DleEncoder) (source dest : List Nat) :
    (dest.length < 1 → decode_escaped enc source dest = .err .StreamTooShort 0 dest) ∧
    (dest.length < 2 → decode_non_escaped enc source dest = .err .StreamTooShort 0 dest) := by
  constructor
  · intro h; rw [decode_escaped.eq_def, if_pos h]
  · intro h; rw [decode_non_escaped.eq_def, if_pos h]

theorem decode_min_dest_capacity_witness :
    (([] : List Nat).length < 1 ∧
      decode_escaped ⟨true, false, true⟩ [5, 7] [] = .err .StreamTooShort 0 []) ∧
    (([0] : List Nat).length < 2 ∧
      decode_non_escaped ⟨true, false, true⟩ [5, 7] [0] = .err .StreamTooShort 0 [0]) :=
  ⟨⟨by decide, (decode_min_dest_capacity ⟨true, false, true⟩ [5, 7] []).1 (by decide)⟩,
   ⟨by decide, (decode_min_dest_capacity ⟨true, false, true⟩ [5, 7] [0]).2 (by decide)⟩⟩

/-- C1: round trip. For both modes and with escape_cr on or off, with frame
delimiting enabled, encoding a byte sequence s that contains no END byte
and decoding the resulting frame under the same configuration succeeds,
yields exactly s, and consumes the whole encoded frame, given destination
buffers of sufficient size. -/
theorem decode_encode_round_trip (mode cr : Bool) (s encDest decDest : List Nat)
    (_hEnd : ETX_CHAR ∉ s)
    (hEnc : (encodedFrame ⟨mode, cr, true⟩ s).length + 1 ≤ encDest.length)
    (hDec : s.length + 2 ≤ decDest.length) :
    ∃ out, encode ⟨mode, cr, true⟩ s encDest =
        .ok ((encodedFrame ⟨mode, cr, true⟩ s).length, out) ∧
      decode ⟨mode, cr, true⟩ (out.take (encodedFrame ⟨mode, cr, true⟩ s).length) decDest =
        .ok s.length (encodedFrame ⟨mode, cr, true⟩ s).length (writeAt decDest 0 s) ∧
      (writeAt decDest 0 s).take s.length = s := by
  refine ⟨writeAt encDest 0 (encodedFrame ⟨mode, cr, true⟩ s), ?_, ?_,
    writeAt_zero_take s decDest (by omega)⟩
  · rw [encode_spec, if_pos (by simp; omega)]
  · rw [writeAt_zero_take _ _ (by omega)]
    cases mode with
    | true =>
      rw [show encodedFrame ⟨true, cr, true⟩ s
          = STX_CHAR :: (escPayload cr s ++ [ETX_CHAR]) from by simp [encodedFrame]]
      rw [decode, if_pos rfl]
      rw [show (STX_CHAR :: (escPayload cr s ++ [ETX_CHAR])).length
          = (escPayload cr s).length + 2 from by simp]
      exact decode_escaped_frame ⟨true, cr, true⟩ s decDest (by omega) (by omega)
    | false =>
      rw [show encodedFrame ⟨false, cr, true⟩ s
          = DLE_CHAR :: STX_CHAR :: (nonEscPayload s ++ (DLE_CHAR :: ETX_CHAR :: []))
          from by simp [encodedFrame]]
      rw [decode, if_neg (by simp)]
      rw [show (DLE_CHAR :: STX_CHAR ::
            (nonEscPayload s ++ (DLE_CHAR :: ETX_CHAR :: []))).length
          = 2 + (nonEscPayload s).length + 2 from by simp; omega]
      exact decode_non_escaped_end_spec ⟨false, cr, true⟩ s [] decDest (by omega) (by omega)

theorem decode_encode_round_trip_witness :
    (ETX_CHAR ∉ ([0, 2, 16] : List Nat)) ∧
    ((encodedFrame ⟨true, false, true⟩ [0, 2, 16]).length + 1 ≤
      ([0, 0, 0, 0, 0, 0, 0, 0] : List Nat).length) ∧
    (([0, 2, 16] : List Nat).length + 2 ≤ ([0, 0, 0, 0, 0] : List Nat).length) ∧
    (∃ out, encode ⟨true, false, true⟩ [0, 2, 16] [0, 0, 0, 0, 0, 0, 0, 0] =
        .ok ((encodedFrame ⟨true, false, true⟩ [0, 2, 16]).length, out) ∧
      decode ⟨true, false, true⟩
          (out.take (encodedFrame ⟨true, false, true⟩ [0, 2, 16]).length)
          [0, 0, 0, 0, 0] =
        .ok ([0, 2, 16] : List Nat).length
          (encodedFrame ⟨true, false, true⟩ [0, 2, 16]).length
          (writeAt [0, 0, 0, 0, 0] 0 [0, 2, 16]) ∧
      (writeAt [0, 0, 0, 0, 0] 0 [0, 2, 16]).take ([0, 2, 16] : List Nat).length
        = [0, 2, 16]) :=
  ⟨by decide, by decide, by decide,
    decode_encode_round_trip true false [0, 2, 16] [0, 0, 0, 0, 0, 0, 0, 0]
      [0, 0, 0, 0, 0] (by decide) (by decide) (by decide)⟩

/-- C4: no embedded delimiters. In escaped mode with frame delimiting, every
successful encode produces a frame whose only START byte is at index 0 and
whose only END byte is at the last index. -/
theorem encode_escaped_no_embedded_delimiters (cr : Bool) (s dest out : List Nat)
    (elen : Nat) (h : encode ⟨true, cr, true⟩ s dest = .ok (elen, out)) :
    ∀ i, i < elen →
      (((out.take elen).getD i 0 = STX_CHAR) ↔ i = 0) ∧
      (((out.take elen).getD i 0 = ETX_CHAR) ↔ i = elen - 1) := by
  rw [encode_spec] at h
  rw [show encodedFrame ⟨true, cr, true⟩ s
      = STX_CHAR :: (escPayload cr s ++ [ETX_CHAR]) from by simp [encodedFrame]] at h
  rw [show (if (⟨true, cr, true⟩ : DleEncoder).add_stx_etx then 1 else 0) = 1 from rfl] at h
  by_cases hcond :
      (STX_CHAR :: (escPayload cr s ++ [ETX_CHAR])).length + 1 ≤ dest.length
  · rw [if_pos hcond] at h
    rw [Except.ok.injEq, Prod.mk.injEq] at h
    obtain ⟨helen, hout⟩ := h
    have htake : out.take elen = STX_CHAR :: (escPayload cr s ++ [ETX_CHAR]) := by
      rw [← hout, ← helen]
      exact writeAt_zero_take _ dest (by omega)
    have helen2 : elen = (escPayload cr s).length + 2 := by
      rw [← helen]; simp
    have hgot : ∀ j, j < (escPayload cr s).length →
        (escPayload cr s ++ [ETX_CHAR]).getD j 0 ≠ STX_CHAR ∧
        (escPayload cr s ++ [ETX_CHAR]).getD j 0 ≠ ETX_CHAR := by
      intro j hj
      rw [List.getD_append _ _ _ j hj, List.getD_eq_getElem _ _ hj]
      exact escPayload_no_delimiters cr s _ (List.getElem_mem hj)
    have hlast : (escPayload cr s ++ [ETX_CHAR]).getD (escPayload cr s).length 0
        = ETX_CHAR := by
      rw [List.getD_append_right _ _ _ _ (Nat.le_refl _)]
      simp
    intro i hi
    rw [htake]
    rcases i with _ | j
    · constructor
      · rw [List.getD_cons_zero]
        simp
      · rw [List.getD_cons_zero, helen2]
        constructor
        · intro hc; exact absurd hc (by decide)
        · intro hc; omega
    · rw [List.getD_cons_succ]
      rw [helen2] at hi ⊢
      by_cases hj : j < (escPayload cr s).length
      · have hnd := hgot j hj
        constructor
        · constructor
          · intro hc; exact absurd hc hnd.1
          · intro hc; omega
        · constructor
          · intro hc; exact absurd hc hnd.2
          · intro hc; omega
      · have hj2 : j = (escPayload cr s).length := by omega
        subst hj2
        constructor
        · constructor
          · intro hc; rw [hlast] at hc; exact absurd hc (by decide)
          · intro hc; omega
        · constructor
          · intro _; omega
          · intro _; exact hlast
  · rw [if_neg hcond] at h
    exact absurd h (fun hc => Except.noConfusion hc)

theorem encode_escaped_no_embedded_delimiters_witness :
    encode ⟨true, false, true⟩ [2] [0, 0, 0, 0, 0] = .ok (4, [2, 16, 66, 3, 0]) ∧
    (∀ i, i < 4 →
      (((([2, 16, 66, 3, 0] : List Nat).take 4).getD i 0 = STX_CHAR) ↔ i = 0) ∧
      (((([2, 16, 66, 3, 0] : List Nat).take 4).getD i 0 = ETX_CHAR) ↔ i = 4 - 1)) :=
  ⟨by decide,
    encode_escaped_no_embedded_delimiters false [2] [0, 0, 0, 0, 0] [2, 16, 66, 3, 0] 4
      (by decide)⟩

/-- C10: implicit read_len bound. Whenever decode returns, in either mode,
with Ok or with Err, the read_len it reports is at most the length of the
input slice; the out of bounds paths return no read_len at all. -/
theorem decode_read_len_le_input_length (enc : DleEncoder) (source dest : List Nat) :
    ReadLenBound (decode enc source dest) source.length := by
  rw [decode]
  by_cases hm : enc.escape_stx_etx = true
  · rw [if_pos hm, decode_escaped.eq_def]
    by_cases h1 : dest.length < 1
    · rw [if_pos h1]; simp [ReadLenBound]
    · rw [if_neg h1]
      match source with
      | [] => simp [ReadLenBound]
      | b0 :: rest =>
        simp only []
        by_cases hb : b0 ≠ STX_CHAR
        · rw [if_pos hb]; simp [ReadLenBound]
        · rw [if_neg hb]
          have hbound := decode_escaped_loop_bound enc dest rest 1 0
          rcases hres : decode_escaped_loop enc dest rest 1 0 with
            ⟨e, rl, d1⟩ | ⟨r2, ei2, di2, d1⟩
          · rw [hres] at hbound
            simp only [EscLoopBound] at hbound
            simp only [ReadLenBound, List.length_cons]
            omega
          · rw [hres] at hbound
            simp only [EscLoopBound] at hbound
            rcases r2 with _ | ⟨bE, r3⟩
            · simp [ReadLenBound]
            · simp only [List.length_cons] at hbound
              simp only []
              by_cases hbe : bE ≠ ETX_CHAR
              · rw [if_pos hbe]
                by_cases hdi : di2 = d1.length
                · rw [if_pos hdi]
                  simp only [ReadLenBound, List.length_cons]
                  omega
                · rw [if_neg hdi]
                  simp only [ReadLenBound, List.length_cons]
                  omega
              · rw [if_neg hbe]
                simp only [ReadLenBound, List.length_cons]
                omega
  · rw [if_neg hm, decode_non_escaped.eq_def]
    by_cases h1 : dest.length < 2
    · rw [if_pos h1]; simp [ReadLenBound]
    · rw [if_neg h1]
      match source with
      | [] => simp [ReadLenBound]
      | b0 :: rest0 =>
        simp only []
        by_cases hb : b0 ≠ DLE_CHAR
        · rw [if_pos hb]; simp [ReadLenBound]
        · rw [if_neg hb]
          match rest0 with
          | [] => simp [ReadLenBound]
          | b1 :: rest1 =>
            simp only []
            by_cases hb1 : b1 ≠ STX_CHAR
            · rw [if_pos hb1]
              simp only [ReadLenBound, List.length_cons]
              omega
            · rw [if_neg hb1]
              have hbound := decode_non_escaped_loop_bound dest rest1 2 0
              rcases hres : decode_non_escaped_loop dest rest1 2 0 with
                r | ⟨r2, ei2, di2, d1⟩
              · rw [hres] at hbound
                simp only [NonLoopBound] at hbound
                exact readLenBound_mono hbound (by simp; omega)
              · rw [hres] at hbound
                simp only [NonLoopBound] at hbound
                simp only []
                by_cases hdi : di2 = d1.length
                · rw [if_pos hdi]
                  simp [ReadLenBound]
                · rw [if_neg hdi]
                  simp only [ReadLenBound, List.length_cons]
                  omega
